import Mathlib

/-!
Verification of the provisioning engine of `chezmoi-a-la-carte`
(`internal/app/provision/provision.go`, `internal/app/provision` detection
code, and the `internal/app` manifest data model), as a shallow embedding
in Lean 4.

Modelling conventions:
* Go maps are modelled as association lists with first-match lookup
  (Go maps have unique keys, so the two agree).
* A nil Go map is modelled as the empty association list (all lookups miss).
* Go `error` values are modelled as `String` (the rendered message);
  functions returning `(T, error)` become `Except String T`.
* The Command Execution Port (`ExecRunner`) is modelled as a record of pure
  functions; `Run` returns `Option String` (`none` = nil error) and
  `Output` returns `Except String String`.
* Calls of the form `_ = p.Runner.Run("info", ...)` / `("section", ...)`
  made during *planning* are progress annotations whose errors are ignored
  by the source and which cannot affect any returned value; they are elided
  in the planning functions.  `ExecutePlan` (whose port invocations matter
  to the claims) records every port call it makes in an explicit trace.
-/

/-- `StringOrSlice` from `internal/app/manifest.go`: normalised to a list
of strings after YAML decoding. -/
abbrev StringOrSlice := List String

/-- `SoftwareEntry` from `internal/app/manifest.go`.  The fields `script`,
`deps`, `lazy` and `app` are used by `provision.go`
(`entry.Script`, `entry.Deps`, `entry.Lazy`, `entry.App`) and by the tests,
but the struct declaration in `src/` predates them; they are modelled from
the spec (§3 DATA MODEL: script snippets, dependency keys, `Lazy` flag,
`App` marker). -/
structure SoftwareEntry where
  bin : StringOrSlice := []
  desc : String := ""
  docs : String := ""
  github : String := ""
  home : String := ""
  name : String := ""
  short : String := ""
  groups : StringOrSlice := []
  brew : StringOrSlice := []
  apt : StringOrSlice := []
  pacman : StringOrSlice := []
  choco : StringOrSlice := []
  go : StringOrSlice := []
  snap : StringOrSlice := []
  port : StringOrSlice := []
  scoop : StringOrSlice := []
  yay : StringOrSlice := []
  apk : StringOrSlice := []
  dnf : StringOrSlice := []
  pkg : StringOrSlice := []
  cask : StringOrSlice := []
  flatpak : StringOrSlice := []
  mas : StringOrSlice := []
  nix : StringOrSlice := []
  pkgTermux : StringOrSlice := []
  emerge : StringOrSlice := []
  nixEnv : StringOrSlice := []
  binaryDarwin : StringOrSlice := []
  binaryLinux : StringOrSlice := []
  binaryWindows : StringOrSlice := []
  xbps : StringOrSlice := []
  zypper : StringOrSlice := []
  cargo : StringOrSlice := []
  pipx : StringOrSlice := []
  script : StringOrSlice := []
  deps : StringOrSlice := []
  lazy : Bool := false
  app : String := ""
  deriving Repr, DecidableEq

/-- `Manifest` (`map[string]SoftwareEntry`), as an association list. -/
abbrev Manifest := List (String × SoftwareEntry)

/-- Go map indexing `m[k]` with `ok` flag, for the typed manifest. -/
def lookupEntry (m : Manifest) (k : String) : Option SoftwareEntry :=
  match m with
  | [] => none
  | (k', e) :: rest => if k' = k then some e else lookupEntry rest k

/-- The key set of a manifest. -/
def manifestKeys (m : Manifest) : List String := m.map Prod.fst

/-- An untyped YAML value as stored in the raw manifest
(`map[string]interface{}`): a string, an array, or any other value
(numbers, booleans, nested maps — `getFieldByPriority` never uses those). -/
inductive RawVal where
  | str (s : String)
  | arr (a : List RawVal)
  | other
  deriving Repr

/-- One raw manifest entry (`map[string]interface{}`), as an association list. -/
abbrev RawEntry := List (String × RawVal)

/-- `ManifestRaw` (`map[string]map[string]interface{}`); `none` models a nil map. -/
abbrev RawManifest := List (String × RawEntry)

/-- Go map indexing for a raw entry. -/
def lookupRaw (e : RawEntry) (k : String) : Option RawVal :=
  match e with
  | [] => none
  | (k', v) :: rest => if k' = k then some v else lookupRaw rest k

/-- Go map indexing for the raw manifest.  `m[key]` on a missing key yields
a nil inner map, modelled as the empty association list. -/
def lookupRawEntry (raw : RawManifest) (k : String) : RawEntry :=
  match raw with
  | [] => []
  | (k', e) :: rest => if k' = k then e else lookupRawEntry rest k

/-- The `SystemInfo` interface (OS family, architecture, distribution id,
headless flag); a pure read-only probe per spec §6. -/
structure SystemInfo where
  os : String
  arch : String
  id : String
  headless : Bool

/-- The `ExecRunner` interface (Command Execution Port).  `run` returns
`none` on success and `some msg` for a non-nil error; `output` captures
standard output. -/
structure ExecRunner where
  run : String → List String → Option String
  output : String → List String → Except String String

/-- `InstallInstruction`: the Go fields `Type` and `Package`
(`Type` is a Lean keyword, hence `instType`). -/
structure InstallInstruction where
  instType : String
  package : String
  deriving Repr, DecidableEq

/-- The `Provisioner` aggregate.  Field names follow the Go struct
(`System`, `Manifest`, `ManifestRaw`, `Runner`, `InstallerOrder`,
`LazyOnly`, `DryRun`, `DryRunLog`, `Errors`, `LogFile`) in lowerCamelCase.
`system = none` / `manifestRaw = none` model nil interface/map values.
The runner is taken as present (a nil `Runner` would make `ExecutePlan`
dereference nil in Go). -/
structure Provisioner where
  system : Option SystemInfo
  manifest : Manifest
  manifestRaw : Option RawManifest
  runner : ExecRunner
  installerOrder : List String
  lazyOnly : Bool
  dryRun : Bool
  dryRunLog : List String
  errors : List String
  logFile : String

/-- `NewProvisioner`: remaining fields take Go zero values. -/
def NewProvisioner (sys : Option SystemInfo) (manifest : Manifest)
    (runner : ExecRunner) : Provisioner :=
  { system := sys
    manifest := manifest
    manifestRaw := none
    runner := runner
    installerOrder := []
    lazyOnly := false
    dryRun := false
    dryRunLog := []
    errors := []
    logFile := "" }

/-- The composite-key chain consulted when an installer identifier is
supplied (`provision.go`, `getFieldByPriority`, first branch). -/
def fieldKeysInst (pfx installer osId osType osArch : String) : List String :=
  [pfx ++ ":" ++ installer ++ ":" ++ osId ++ ":" ++ osArch,
   pfx ++ ":" ++ installer ++ ":" ++ osId,
   pfx ++ ":" ++ installer ++ ":" ++ osType ++ ":" ++ osArch,
   pfx ++ ":" ++ installer ++ ":" ++ osType,
   pfx ++ ":" ++ installer ++ ":" ++ osArch,
   pfx ++ ":" ++ installer,
   pfx]

/-- The composite-key chain consulted when no installer identifier is
supplied (`provision.go`, `getFieldByPriority`, second branch). -/
def fieldKeysPlain (pfx osId osType osArch : String) : List String :=
  [pfx ++ ":" ++ osId ++ ":" ++ osArch,
   pfx ++ ":" ++ osId,
   pfx ++ ":" ++ osType ++ ":" ++ osArch,
   pfx ++ ":" ++ osType,
   pfx ++ ":" ++ osArch,
   pfx]

/-- The loop body shared by both branches of `getFieldByPriority`: walk the
key chain; a present value is used if it is a string, or a non-empty array
whose first element is a string; otherwise the walk continues. -/
def firstStringVal (keys : List String) (entry : RawEntry) : Option String :=
  match keys with
  | [] => none
  | k :: rest =>
    match lookupRaw entry k with
    | some (RawVal.str s) => some s
    | some (RawVal.arr (RawVal.str s :: _)) => some s
    | _ => firstStringVal rest entry

/-- `getFieldByPriority` from `provision.go`. -/
def getFieldByPriority (entry : RawEntry) (pfx installer osId osType osArch : String) :
    Option String :=
  if installer ≠ "" then
    firstStringVal (fieldKeysInst pfx installer osId osType osArch) entry
  else
    firstStringVal (fieldKeysPlain pfx osId osType osArch) entry

/-- Distribution id reported to the resolution logic (`p.System.ID()`,
empty when `p.System` is nil). -/
def sysId (p : Provisioner) : String :=
  match p.system with
  | some s => s.id
  | none => ""

/-- OS family (`p.System.OS()`, empty when `p.System` is nil). -/
def sysOS (p : Provisioner) : String :=
  match p.system with
  | some s => s.os
  | none => ""

/-- Architecture (`p.System.Arch()`, empty when `p.System` is nil). -/
def sysArch (p : Provisioner) : String :=
  match p.system with
  | some s => s.arch
  | none => ""

/-- `shouldSkipInstalled`: `installed != nil && installed[key]`. -/
def shouldSkipInstalled (installed : Option (String → Bool)) (key : String) : Bool :=
  match installed with
  | some f => f key
  | none => false

/-- `shouldSkipHeadless`: `p.System != nil && p.System.IsHeadless() && entry.App != ""`. -/
def shouldSkipHeadless (p : Provisioner) (entry : SoftwareEntry) : Bool :=
  match p.system with
  | some s => s.headless && entry.app ≠ ""
  | none => false

/-- `shouldSkipLazy`: `p.LazyOnly && !entry.Lazy`. -/
def shouldSkipLazy (p : Provisioner) (entry : SoftwareEntry) : Bool :=
  p.lazyOnly && !entry.lazy

/-- The default installer preference order (`addInstallerInstruction`,
used when `p.InstallerOrder` is empty). -/
def defaultInstallerOrder : List String :=
  ["apt", "brew", "pacman", "apk", "dnf", "zypper", "scoop", "choco", "go",
   "cargo", "pipx", "cask", "flatpak", "snap", "port", "yay", "pkg", "emerge",
   "nix", "mas", "xbps", "binary:darwin", "binary:linux", "binary:windows"]

/-- The installer order actually iterated by `addInstallerInstruction`. -/
def effectiveOrder (p : Provisioner) : List String :=
  if p.installerOrder.length = 0 then defaultInstallerOrder else p.installerOrder

/-- `unicode.IsSpace`, the separator class of `strings.Fields`: the six
ASCII space characters plus NEL, NBSP, and the Unicode `White_Space`
code points (OGHAM SPACE MARK, the U+2000–U+200A spaces, LINE SEPARATOR,
PARAGRAPH SEPARATOR, NARROW NO-BREAK SPACE, MEDIUM MATHEMATICAL SPACE,
IDEOGRAPHIC SPACE). -/
def goIsSpace (c : Char) : Bool :=
  c = ' ' || c = '\t' || c = '\n' || c = Char.ofNat 0x0B || c = Char.ofNat 0x0C ||
  c = '\r' || c = Char.ofNat 0x85 || c = Char.ofNat 0xA0 || c = Char.ofNat 0x1680 ||
  (0x2000 ≤ c.toNat && c.toNat ≤ 0x200A) || c = Char.ofNat 0x2028 ||
  c = Char.ofNat 0x2029 || c = Char.ofNat 0x202F || c = Char.ofNat 0x205F ||
  c = Char.ofNat 0x3000

/-- Scanner for `strings.Fields` over the string's characters: `cur` holds
the characters of the field being read, in reverse. -/
def goFieldsAux : List Char → List Char → List String
  | [], cur => if cur.isEmpty then [] else [String.mk cur.reverse]
  | c :: rest, cur =>
    if goIsSpace c then
      if cur.isEmpty then goFieldsAux rest []
      else String.mk cur.reverse :: goFieldsAux rest []
    else goFieldsAux rest (c :: cur)

/-- `strings.Fields`: the maximal runs of non-whitespace characters, i.e.
the string split around runs of Unicode whitespace with empties dropped. -/
def goFields (s : String) : List String :=
  goFieldsAux s.data []

/-- The apt-family patch in `addInstallerInstruction`: for
apt/apk/dnf/zypper/yum, a value containing a space
(`strings.Contains(val, " ")`, i.e. the space character occurs) is reduced
to its last whitespace-delimited field, `fields[len(fields)-1]`.  On a
value that contains a space yet splits to zero fields (e.g. `" "`), that
index is `-1` and the Go code panics; `none` models the panic. -/
def patchPkg (instType val : String) : Option String :=
  if (instType = "apt" || instType = "apk" || instType = "dnf" ||
      instType = "zypper" || instType = "yum") && val.data.contains ' ' then
    match (goFields val).getLast? with
    | some pkg => some pkg
    | none => none
  else some val

/-- The message of the Go runtime panic raised by `fields[len(fields)-1]`
on an empty fields slice. -/
def aptPatchPanicMsg : String := "runtime error: index out of range [-1]"

/-- The raw map produced by `yaml.Marshal`/`yaml.Unmarshal` round-tripping a
typed entry (the `p.ManifestRaw == nil` branch of `addInstallerInstruction`):
each YAML tag maps to the marshalled field value — string fields to strings,
`StringOrSlice` fields to arrays of strings.  The tags of the spec-modelled
fields `script`/`deps`/`lazy`/`app` (declaration not in `src/`) follow the
underscore convention of the other metadata tags. -/
def yamlEntryMap (e : SoftwareEntry) : RawEntry :=
  [("_bin", RawVal.arr (e.bin.map RawVal.str)),
   ("_desc", RawVal.str e.desc),
   ("_docs", RawVal.str e.docs),
   ("_github", RawVal.str e.github),
   ("_home", RawVal.str e.home),
   ("_name", RawVal.str e.name),
   ("_short", RawVal.str e.short),
   ("_groups", RawVal.arr (e.groups.map RawVal.str)),
   ("brew", RawVal.arr (e.brew.map RawVal.str)),
   ("apt", RawVal.arr (e.apt.map RawVal.str)),
   ("pacman", RawVal.arr (e.pacman.map RawVal.str)),
   ("choco", RawVal.arr (e.choco.map RawVal.str)),
   ("go", RawVal.arr (e.go.map RawVal.str)),
   ("snap", RawVal.arr (e.snap.map RawVal.str)),
   ("port", RawVal.arr (e.port.map RawVal.str)),
   ("scoop", RawVal.arr (e.scoop.map RawVal.str)),
   ("yay", RawVal.arr (e.yay.map RawVal.str)),
   ("apk", RawVal.arr (e.apk.map RawVal.str)),
   ("dnf", RawVal.arr (e.dnf.map RawVal.str)),
   ("pkg", RawVal.arr (e.pkg.map RawVal.str)),
   ("cask", RawVal.arr (e.cask.map RawVal.str)),
   ("flatpak", RawVal.arr (e.flatpak.map RawVal.str)),
   ("mas", RawVal.arr (e.mas.map RawVal.str)),
   ("nix", RawVal.arr (e.nix.map RawVal.str)),
   ("pkg-termux", RawVal.arr (e.pkgTermux.map RawVal.str)),
   ("emerge", RawVal.arr (e.emerge.map RawVal.str)),
   ("nix-env", RawVal.arr (e.nixEnv.map RawVal.str)),
   ("binary:darwin", RawVal.arr (e.binaryDarwin.map RawVal.str)),
   ("binary:linux", RawVal.arr (e.binaryLinux.map RawVal.str)),
   ("binary:windows", RawVal.arr (e.binaryWindows.map RawVal.str)),
   ("xbps", RawVal.arr (e.xbps.map RawVal.str)),
   ("zypper", RawVal.arr (e.zypper.map RawVal.str)),
   ("cargo", RawVal.arr (e.cargo.map RawVal.str)),
   ("pipx", RawVal.arr (e.pipx.map RawVal.str)),
   ("_script", RawVal.arr (e.script.map RawVal.str)),
   ("_deps", RawVal.arr (e.deps.map RawVal.str)),
   ("_lazy", RawVal.other),
   ("_app", RawVal.str e.app)]

/-- The `entryMap` computed at the top of `addInstallerInstruction`:
the raw entry for `key` when `p.ManifestRaw` is non-nil (a missing key
yields a nil map, i.e. the empty entry), otherwise the YAML round-trip of
the typed entry. -/
def entryRawMap (p : Provisioner) (key : String) (entry : SoftwareEntry) : RawEntry :=
  match p.manifestRaw with
  | some raw => lookupRawEntry raw key
  | none => yamlEntryMap entry

/-- The installer-selection loop of `addInstallerInstruction`: the first
installer type in the order whose field resolves wins (`break`); later
installers are not tried. -/
def pickInstaller (em : RawEntry) (osId osType osArch : String) :
    List String → Option (String × String)
  | [] => none
  | t :: rest =>
    match getFieldByPriority em t "" osId osType osArch with
    | some val => some (t, val)
    | none => pickInstaller em osId osType osArch rest

/-- `addInstallerInstruction` from `provision.go`, returning the (zero or
one) instructions it appends to the plan; `none` propagates the runtime
panic of the apt-family patch. -/
def addInstallerInstruction (p : Provisioner) (key : String) (entry : SoftwareEntry) :
    Option (List InstallInstruction) :=
  let em := entryRawMap p key entry
  match pickInstaller em (sysId p) (sysOS p) (sysArch p) (effectiveOrder p) with
  | some (t, val) =>
    match patchPkg t val with
    | some pkg => some [{ instType := t, package := pkg }]
    | none => none
  | none => some []

/-- `addScriptInstructions`: one `script` instruction per snippet, in order. -/
def addScriptInstructions (entry : SoftwareEntry) : List InstallInstruction :=
  entry.script.map (fun s => { instType := "script", package := s })

/-- A successful lookup key belongs to the manifest's key set. -/
lemma lookupEntry_mem_keys {m : Manifest} {k : String} {e : SoftwareEntry}
    (h : lookupEntry m k = some e) : k ∈ manifestKeys m := by
  induction m with
  | nil => simp [lookupEntry] at h
  | cons kv rest ih =>
    obtain ⟨k', e'⟩ := kv
    by_cases hk : k' = k
    · subst hk; simp [manifestKeys]
    · simp only [lookupEntry, if_neg hk] at h
      simp [manifestKeys]
      right
      simpa [manifestKeys] using ih h

/-- Filtering by a stronger predicate keeps at most as many elements. -/
lemma filter_length_le {l : List String} {p q : String → Bool}
    (h : ∀ x, q x = true → p x = true) :
    (l.filter q).length ≤ (l.filter p).length := by
  induction l with
  | nil => simp
  | cons a t ih =>
    by_cases hq : q a = true
    · simp [List.filter, hq, h a hq]; omega
    · have hq' : q a = false := by simp at hq; exact hq
      by_cases hp : p a = true
      · simp [List.filter, hq', hp]; omega
      · have hp' : p a = false := by simp at hp; exact hp
        simp [List.filter, hq', hp']; exact ih

/-- Filtering by a strictly stronger predicate (with a live witness of the
difference) keeps strictly fewer elements. -/
lemma filter_length_lt {l : List String} {p q : String → Bool}
    (h : ∀ x, q x = true → p x = true) (x : String)
    (hx : x ∈ l) (hpx : p x = true) (hqx : q x = false) :
    (l.filter q).length < (l.filter p).length := by
  induction l with
  | nil => simp at hx
  | cons a t ih =>
    rcases List.mem_cons.mp hx with rfl | hxt
    · simp [List.filter, hqx, hpx]
      have := filter_length_le (l := t) h
      omega
    · by_cases hq : q a = true
      · simp [List.filter, hq, h a hq]
        exact ih hxt
      · have hq' : q a = false := by simp at hq; exact hq
        by_cases hp : p a = true
        · simp [List.filter, hq', hp]
          have := ih hxt
          omega
        · have hp' : p a = false := by simp at hp; exact hp
          simp [List.filter, hq', hp']
          exact ih hxt

/-- Number of manifest keys not yet visited; the termination measure of the
dependency expansion mirrors Go's: each recursive call either marks a fresh
manifest key visited or shortens the work list. -/
def unvisitedCount (m : Manifest) (vis : List String) : Nat :=
  ((manifestKeys m).filter (fun x => decide (x ∉ vis))).length

/-- `expandDeps` from `provision.go`.  The Go function threads a mutable
`visited` set and returns the ordered result; here the pair
`(result, newly)` is returned, where `newly` lists the keys added to
`visited` (so the final visited set is `newly ++ vis`). -/
def expandDeps (m : Manifest) : List String → List String → Except String (List String × List String)
  | [], _ => .ok ([], [])
  | k :: ks, vis =>
    if hk : k ∈ vis then
      expandDeps m ks vis
    else
      match hlook : lookupEntry m k with
      | none => .error ("manifest key not found: " ++ k)
      | some e =>
        match (if 0 < e.deps.length then expandDeps m e.deps (k :: vis) else .ok ([], [])) with
        | .error s => .error s
        | .ok (r1, n1) =>
          match expandDeps m ks (n1 ++ k :: vis) with
          | .error s => .error s
          | .ok (r2, n2) => .ok (r1 ++ k :: r2, n2 ++ n1 ++ [k])
termination_by keys vis => (unvisitedCount m vis, keys.length)
decreasing_by
  · apply Prod.Lex.right
    simp
  · apply Prod.Lex.left
    unfold unvisitedCount
    apply filter_length_lt (x := k)
    · intro x hx
      simp at hx ⊢
      exact hx.2
    · exact lookupEntry_mem_keys hlook
    · simpa using hk
    · simp
  · apply Prod.Lex.left
    unfold unvisitedCount
    apply filter_length_lt (x := k)
    · intro x hx
      simp at hx ⊢
      exact hx.2.2
    · exact lookupEntry_mem_keys hlook
    · simpa using hk
    · simp

/-- Outcome of a plan-building step: a value, a returned Go `error`, or a
runtime panic (which in Go crashes the process rather than being returned;
the two failure channels are kept distinct). -/
inductive PlanResult (α : Type) where
  | ok (a : α)
  | error (s : String)
  | panic (s : String)
  deriving Repr

/-- `planForKey` from `provision.go`, returning the instructions it appends
for one key (skip paths append nothing; their `info` notes are elided).
The apt-family patch panic surfaces as `PlanResult.panic`. -/
def planForKey (p : Provisioner) (key : String) (installed : Option (String → Bool)) :
    PlanResult (List InstallInstruction) :=
  match lookupEntry p.manifest key with
  | none => .error ("manifest key not found: " ++ key)
  | some e =>
    if shouldSkipInstalled installed key then .ok []
    else if shouldSkipHeadless p e then .ok []
    else if shouldSkipLazy p e then .ok []
    else
      match addInstallerInstruction p key e with
      | some instrs => .ok (addScriptInstructions e ++ instrs)
      | none => .panic aptPatchPanicMsg

/-- The loop of `PlanProvision` over the expanded keys; errors and panics
both abort (an error by `return nil, err`, a panic by crashing). -/
def planKeysLoop (p : Provisioner) (installed : Option (String → Bool)) :
    List String → PlanResult (List InstallInstruction)
  | [] => .ok []
  | k :: ks =>
    match planForKey p k installed with
    | .error s => .error s
    | .panic s => .panic s
    | .ok part =>
      match planKeysLoop p installed ks with
      | .error s => .error s
      | .panic s => .panic s
      | .ok rest => .ok (part ++ rest)

/-- `PlanProvision` from `provision.go`: expand dependencies, then build the
plan key by key; an error aborts with no plan (Go returns `(nil, err)`). -/
def PlanProvision (p : Provisioner) (keys : List String) (installed : Option (String → Bool)) :
    PlanResult (List InstallInstruction) :=
  match expandDeps p.manifest keys [] with
  | .error s => .error s
  | .ok (expanded, _) => planKeysLoop p installed expanded

/-- The command and arguments `ExecutePlan` dispatches for one instruction
(the `switch inst.Type` block; the `default` arm coincides with the simple
package-manager arm). -/
def instrCall (inst : InstallInstruction) : String × List String :=
  if inst.instType = "script" then ("script", [inst.package])
  else if inst.instType = "apt" || inst.instType = "apk" || inst.instType = "dnf" ||
          inst.instType = "zypper" || inst.instType = "yum" then
    (inst.instType, [inst.package])
  else if inst.instType = "brew" then ("brew", ["install", inst.package])
  else if inst.instType = "go" then ("go", ["install", inst.package])
  else (inst.instType, [inst.package])

/-- Result of `ExecutePlan`: the updated provisioner, the trace of Command
Execution Port invocations, the lines appended to the configured log file,
and the returned error (`none` = nil).  The source contains no file output
whatsoever, so `logFileAppends` is empty by construction; the channel
exists so that claims about log-file behaviour can be stated. -/
structure ExecOut where
  prov : Provisioner
  calls : List (String × List String)
  logFileAppends : List String
  ret : Option String

/-- The per-instruction loop body of `ExecutePlan`, folding
`(dryRunLog, calls, errs)`. -/
def execStep (p : Provisioner) (st : List String × List (String × List String) × List String)
    (inst : InstallInstruction) : List String × List (String × List String) × List String :=
  match st with
  | (dlog, calls, errs) =>
    if p.dryRun then (dlog ++ [inst.instType ++ " " ++ inst.package], calls, errs)
    else
      match instrCall inst with
      | (c, args) =>
        match p.runner.run c args with
        | none => (dlog, calls ++ [(c, args)], errs)
        | some e => (dlog, calls ++ [(c, args)], errs ++ [e])

/-- `ExecutePlan` from `provision.go`.  Failures are joined
(`errors.Join` renders messages newline-separated) and *returned*; the
`Errors` field is left untouched by the source, as is the log file. -/
def ExecutePlan (p : Provisioner) (plan : List InstallInstruction) : ExecOut :=
  if plan.length = 0 then { prov := p, calls := [], logFileAppends := [], ret := none }
  else
    match plan.foldl (execStep p) (p.dryRunLog, [], []) with
    | (dlog, calls, errs) =>
      { prov := { p with dryRunLog := dlog }
        calls := [("section", ["Installing"])] ++ calls ++ [("section", ["Complete"])]
        logFileAppends := []
        ret := if errs.length = 0 then none else some (String.intercalate "\n" errs) }

/-- `AggregatedError` from `provision.go`: renders `p.Errors` as one
numbered block, or nil when the list is empty. -/
def AggregatedError (p : Provisioner) : Option String :=
  if p.errors.length = 0 then none
  else
    some ((toString p.errors.length) ++ " errors occurred:\n" ++
      String.join ((List.range p.errors.length).map (fun i =>
        "[" ++ toString (i + 1) ++ "] " ++ p.errors.getD i "" ++ "\n")))

/-- `ClearErrors` from `provision.go`. -/
def ClearErrors (p : Provisioner) : Provisioner := { p with errors := [] }

/-- `DryRunCommands` from `provision.go` (returns a copy of the log). -/
def DryRunCommands (p : Provisioner) : List String := p.dryRunLog

/-- Lines as produced by `bufio.Scanner` over captured output: split on
newlines, stripping a trailing carriage return.  (The scanner also omits a
final empty segment; every parser below ignores empty lines, so keeping it
is observationally equal.) -/
def goLines (s : String) : List String :=
  (s.splitOn "\n").map (fun l => if l.endsWith "\r" then l.dropRight 1 else l)

/-- `getAptInstalled` (`installed.go`): `dpkg -l`, keep the second field of
lines starting with `"ii "`; a query error yields the empty set. -/
def getAptInstalled (runner : ExecRunner) : List String :=
  match runner.output "dpkg" ["-l"] with
  | .error _ => []
  | .ok out =>
    (goLines out).foldl (fun acc line =>
      if line.startsWith "ii " then
        match goFields line with
        | _ :: name :: _ => acc ++ [name]
        | _ => acc
      else acc) []

/-- `getBrewInstalled`: `brew list -1`, every non-blank trimmed line. -/
def getBrewInstalled (runner : ExecRunner) : List String :=
  match runner.output "brew" ["list", "-1"] with
  | .error _ => []
  | .ok out =>
    (goLines out).foldl (fun acc line =>
      let name := line.trim
      if name ≠ "" then acc ++ [name] else acc) []

/-- `getPipxInstalled`: `pipx list`, lines starting `"  - "`, trimmed. -/
def getPipxInstalled (runner : ExecRunner) : List String :=
  match runner.output "pipx" ["list"] with
  | .error _ => []
  | .ok out =>
    (goLines out).foldl (fun acc line =>
      if line.startsWith "  - " then
        let name := (line.drop 4).trim
        if name ≠ "" then acc ++ [name] else acc
      else acc) []

/-- `getCargoInstalled`: `cargo install --list`, first field of non-empty
unindented header lines containing a space. -/
def getCargoInstalled (runner : ExecRunner) : List String :=
  match runner.output "cargo" ["install", "--list"] with
  | .error _ => []
  | .ok out =>
    (goLines out).foldl (fun acc line =>
      if line ≠ "" && !line.startsWith " " && line.contains ' ' then
        match goFields line with
        | name :: _ => acc ++ [name]
        | [] => acc
      else acc) []

/-- A character matched by the name class of the npm pattern
`([a-zA-Z0-9._-]+)@`. -/
def npmNameChar (c : Char) : Bool :=
  c.isAlphanum || c = '.' || c = '_' || c = '-'

/-- Leftmost match of `([a-zA-Z0-9._-]+)@` (Go `FindStringSubmatch`),
returning the capture group: scan for the first `@` immediately preceded by
a non-empty run of name characters; the capture is that (maximal) run. -/
def npmScan : List Char → List Char → Option String
  | [], _ => none
  | c :: rest, run =>
    if c = '@' then
      if run.isEmpty then npmScan rest [] else some (String.mk run.reverse)
    else if npmNameChar c then npmScan rest (c :: run)
    else npmScan rest []

/-- `getNpmInstalled`: `npm list -g --depth=0`, first regex capture of
lines containing `@`. -/
def getNpmInstalled (runner : ExecRunner) : List String :=
  match runner.output "npm" ["list", "-g", "--depth=0"] with
  | .error _ => []
  | .ok out =>
    (goLines out).foldl (fun acc line =>
      if line.contains '@' then
        match npmScan line.data [] with
        | some name => acc ++ [name]
        | none => acc
      else acc) []

/-- `GetInstalledPackages` (`installed.go`): the merge of the five
per-manager query results (Go merges into one `map[string]bool`; list
concatenation has the same membership). -/
def GetInstalledPackages (runner : ExecRunner) : List String :=
  getAptInstalled runner ++ getBrewInstalled runner ++ getPipxInstalled runner ++
    getCargoInstalled runner ++ getNpmInstalled runner

/-- Classification used by the resolver loop: a present string, or a
present non-empty array with a string head, is usable; anything else is
passed over. -/
def usableVal (v : Option RawVal) : Option String :=
  match v with
  | some (RawVal.str s) => some s
  | some (RawVal.arr (RawVal.str s :: _)) => some s
  | _ => none

/-- The usable value of a raw entry at one composite key. -/
def usableAt (e : RawEntry) (k : String) : Option String :=
  usableVal (lookupRaw e k)

/-- Removal of a composite key from a raw entry (Go `delete(m, k)`). -/
def eraseRawKey (e : RawEntry) (k : String) : RawEntry :=
  e.filter (fun kv => kv.1 ≠ k)

/-- Concrete raw entry used to instantiate C7: the two most specific
composite keys are present. -/
def entryC7 : RawEntry :=
  [("apt:x:d:a", RawVal.str "v1"), ("apt:x:d", RawVal.str "v2")]

/-- Runner whose queries all fail and whose commands all succeed; used for
concrete instantiations that never reach the port. -/
def dummyRunner : ExecRunner :=
  { run := fun _ _ => none, output := fun _ _ => Except.error "not available" }

/-- Concrete typed entry for C2: the `apt` field is set. -/
def entryC2 : SoftwareEntry := { apt := ["foo"] }

/-- Concrete provisioner for C2: raw manifest present but empty. -/
def provC2 : Provisioner :=
  { system := none
    manifest := [("foo", entryC2)]
    manifestRaw := some []
    runner := dummyRunner
    installerOrder := []
    lazyOnly := false
    dryRun := false
    dryRunLog := []
    errors := []
    logFile := "" }

/-- Concrete dry-run provisioner for the C9 witness. -/
def provC9 : Provisioner :=
  { system := none
    manifest := []
    manifestRaw := none
    runner := dummyRunner
    installerOrder := []
    lazyOnly := false
    dryRun := true
    dryRunLog := []
    errors := []
    logFile := "" }

/-- Runner whose every command fails with a message naming the command. -/
def failRunner : ExecRunner :=
  { run := fun c _ => some ("fail " ++ c), output := fun _ _ => Except.error "no" }

/-- Concrete provisioner whose port fails every command (C1). -/
def provC1 : Provisioner :=
  { system := none
    manifest := []
    manifestRaw := none
    runner := failRunner
    installerOrder := []
    lazyOnly := false
    dryRun := false
    dryRunLog := []
    errors := []
    logFile := "" }

/-- The one-instruction failing plan used for C1/C3. -/
def planFail : List InstallInstruction := [{ instType := "apt", package := "foo" }]

/-- Concrete provisioner with a configured log file and failing port (C3). -/
def provC3 : Provisioner :=
  { system := none
    manifest := []
    manifestRaw := none
    runner := failRunner
    installerOrder := []
    lazyOnly := false
    dryRun := false
    dryRunLog := []
    errors := []
    logFile := "/tmp/provision.log" }

/-- Concrete probe for the C8 witness: a Debian x64 host. -/
def sysC8 : SystemInfo := { os := "linux", arch := "amd64", id := "debian", headless := false }

/-- Concrete entry for the C8 witness: one script snippet; the raw entry
resolves only for `brew`. -/
def entryC8 : SoftwareEntry := { script := ["echo s1"] }

/-- Concrete provisioner for the C8 witness: installer order `apt, brew`;
the raw entry for `k` has only a `brew` value. -/
def provC8 : Provisioner :=
  { system := some sysC8
    manifest := [("k", entryC8)]
    manifestRaw := some [("k", [("brew", RawVal.str "pkgB")])]
    runner := dummyRunner
    installerOrder := ["apt", "brew"]
    lazyOnly := false
    dryRun := false
    dryRunLog := []
    errors := []
    logFile := "" }

/-- The dependency list the expander reads for a key (empty for a missing
key; the expander errors before using it in that case). -/
def depsOf (m : Manifest) (k : String) : List String :=
  match lookupEntry m k with
  | some e => e.deps
  | none => []

/-- Topological soundness of an emission sequence: scanning left to right,
every emitted key's dependencies lie among the keys already scanned (or in
the initially-done set). -/
def topoOK (m : Manifest) : List String → List String → Prop
  | _, [] => True
  | done, k :: rest => (∀ d ∈ depsOf m k, d ∈ done) ∧ topoOK m (k :: done) rest

/-- The spec's worked example: `{a: deps=[b,c]}, {b: deps=[c]}, {c: []}`. -/
def exampleManifest : Manifest :=
  [("a", { deps := ["b", "c"] }), ("b", { deps := ["c"] }), ("c", {})]

/-- The spec's cyclic example: A depends on B and B depends on A. -/
def cycleManifest : Manifest :=
  [("A", { deps := ["B"] }), ("B", { deps := ["A"] })]

/-- Keys reachable from a request list through the `Deps` edges of present
entries (the keys `expandDeps` may try to look up). -/
inductive ReachesFrom (m : Manifest) (keys : List String) : String → Prop where
  | base {x : String} : x ∈ keys → ReachesFrom m keys x
  | step {y : String} {e : SoftwareEntry} {d : String} :
      ReachesFrom m keys y → lookupEntry m y = some e → d ∈ e.deps →
      ReachesFrom m keys d

/-- Concrete provisioner for the C8 counterexample: the raw `apt` value of
`k` is the single-space string, which contains a space but splits to zero
whitespace-delimited fields. -/
def provC8panic : Provisioner :=
  { system := none
    manifest := [("k", {})]
    manifestRaw := some [("k", [("apt", RawVal.str " ")])]
    runner := dummyRunner
    installerOrder := ["apt"]
    lazyOnly := false
    dryRun := false
    dryRunLog := []
    errors := []
    logFile := "" }

/-- Concrete provisioner for the C6 witness: `a` depends on a key that is
not in the manifest. -/
def provC6 : Provisioner :=
  { system := none
    manifest := [("a", { deps := ["missing"] })]
    manifestRaw := none
    runner := dummyRunner
    installerOrder := []
    lazyOnly := false
    dryRun := false
    dryRunLog := []
    errors := []
    logFile := "" }




/-- One step of the resolver loop, phrased through `usableAt`. -/
lemma firstStringVal_cons (entry : RawEntry) (k : String) (rest : List String) :
    firstStringVal (k :: rest) entry =
      match usableAt entry k with
      | some s => some s
      | none => firstStringVal rest entry := by
  cases h : lookupRaw entry k with
  | none => simp [firstStringVal, usableAt, usableVal, h]
  | some v =>
    cases v with
    | str s => simp [firstStringVal, usableAt, usableVal, h]
    | arr a =>
      cases a with
      | nil => simp [firstStringVal, usableAt, usableVal, h]
      | cons hd tl =>
        cases hd with
        | str s => simp [firstStringVal, usableAt, usableVal, h]
        | arr b => simp [firstStringVal, usableAt, usableVal, h]
        | other => simp [firstStringVal, usableAt, usableVal, h]
    | other => simp [firstStringVal, usableAt, usableVal, h]

/-- Keys with no usable value are skipped by the resolver loop. -/
lemma firstStringVal_append_none {pre : List String} {entry : RawEntry}
    (rest : List String) (h : ∀ k ∈ pre, usableAt entry k = none) :
    firstStringVal (pre ++ rest) entry = firstStringVal rest entry := by
  induction pre with
  | nil => rfl
  | cons k pre ih =>
    rw [List.cons_append, firstStringVal_cons, h k (List.mem_cons_self k pre)]
    exact ih (fun k' hk' => h k' (List.mem_cons_of_mem k hk'))

/-- The resolver loop only inspects the entry at the chain's keys. -/
lemma firstStringVal_congr {e1 e2 : RawEntry} (keys : List String)
    (h : ∀ k ∈ keys, lookupRaw e1 k = lookupRaw e2 k) :
    firstStringVal keys e1 = firstStringVal keys e2 := by
  induction keys with
  | nil => rfl
  | cons k rest ih =>
    rw [firstStringVal_cons, firstStringVal_cons, usableAt, usableAt,
      h k (List.mem_cons_self k rest)]
    cases usableVal (lookupRaw e2 k) with
    | none => exact ih (fun k' hk' => h k' (List.mem_cons_of_mem k hk'))
    | some s => rfl

/-- Lookup after key removal. -/
lemma lookupRaw_erase (e : RawEntry) (k k' : String) :
    lookupRaw (eraseRawKey e k) k' = if k' = k then none else lookupRaw e k' := by
  induction e with
  | nil => simp [eraseRawKey, lookupRaw]
  | cons kv rest ih =>
    obtain ⟨k0, v0⟩ := kv
    by_cases hk0 : k0 = k
    · have h1 : eraseRawKey ((k0, v0) :: rest) k = eraseRawKey rest k := by
        simp [eraseRawKey, List.filter_cons, hk0]
      rw [h1, ih]
      by_cases hk' : k' = k
      · simp [hk']
      · have hk0' : ¬k0 = k' := by rw [hk0]; exact fun h => hk' h.symm
        simp [hk', lookupRaw, hk0']
    · have h1 : eraseRawKey ((k0, v0) :: rest) k = (k0, v0) :: eraseRawKey rest k := by
        simp [eraseRawKey, List.filter_cons, hk0]
      rw [h1]
      by_cases hk0' : k0 = k'
      · subst hk0'
        simp [lookupRaw, hk0]
      · simp [lookupRaw, hk0', ih]

/-- C7: with a non-empty installer identifier, `getFieldByPriority`
consults exactly `prefix:installer:osID:arch`, `prefix:installer:osID`,
`prefix:installer:osFamily:arch`, `prefix:installer:osFamily`,
`prefix:installer:arch`, `prefix:installer`, `prefix`, in that order
(without the installer segment when none is supplied), returns the first
usable value, and removing the most specific present key makes resolution
fall back to the remainder of the chain in the same order. -/
theorem getFieldByPriority_order_and_fallback
    (entry : RawEntry) (pfx installer osId osType osArch : String) :
    (installer ≠ "" →
      getFieldByPriority entry pfx installer osId osType osArch =
        firstStringVal
          [pfx ++ ":" ++ installer ++ ":" ++ osId ++ ":" ++ osArch,
           pfx ++ ":" ++ installer ++ ":" ++ osId,
           pfx ++ ":" ++ installer ++ ":" ++ osType ++ ":" ++ osArch,
           pfx ++ ":" ++ installer ++ ":" ++ osType,
           pfx ++ ":" ++ installer ++ ":" ++ osArch,
           pfx ++ ":" ++ installer,
           pfx] entry) ∧
    (installer = "" →
      getFieldByPriority entry pfx installer osId osType osArch =
        firstStringVal
          [pfx ++ ":" ++ osId ++ ":" ++ osArch,
           pfx ++ ":" ++ osId,
           pfx ++ ":" ++ osType ++ ":" ++ osArch,
           pfx ++ ":" ++ osType,
           pfx ++ ":" ++ osArch,
           pfx] entry) ∧
    (∀ pre k post v, installer ≠ "" →
      fieldKeysInst pfx installer osId osType osArch = pre ++ k :: post →
      (∀ k' ∈ pre, usableAt entry k' = none) →
      usableAt entry k = some v →
      getFieldByPriority entry pfx installer osId osType osArch = some v ∧
      (k ∉ post →
        getFieldByPriority (eraseRawKey entry k) pfx installer osId osType osArch =
          firstStringVal post entry)) := by
  refine ⟨fun h => by simp [getFieldByPriority, fieldKeysInst, h],
          fun h => by simp [getFieldByPriority, fieldKeysPlain, h],
          fun pre k post v hinst hsplit hpre hk => ?_⟩
  have hbase : getFieldByPriority entry pfx installer osId osType osArch =
      firstStringVal (pre ++ k :: post) entry := by
    rw [getFieldByPriority, if_pos hinst, ← hsplit]
  constructor
  · rw [hbase, firstStringVal_append_none (k :: post) hpre, firstStringVal_cons, hk]
  · intro hkpost
    have herase : getFieldByPriority (eraseRawKey entry k) pfx installer osId osType osArch =
        firstStringVal (pre ++ k :: post) (eraseRawKey entry k) := by
      rw [getFieldByPriority, if_pos hinst, ← hsplit]
    rw [herase]
    have hpre' : ∀ k' ∈ pre, usableAt (eraseRawKey entry k) k' = none := by
      intro k' hk'
      by_cases hkk : k' = k
      · exfalso
        have hnone := hpre k' hk'
        rw [hkk] at hnone
        rw [hnone] at hk
        exact Option.noConfusion hk
      · rw [usableAt, lookupRaw_erase, if_neg hkk]
        exact hpre k' hk'
    rw [firstStringVal_append_none (k :: post) hpre', firstStringVal_cons]
    have : usableAt (eraseRawKey entry k) k = none := by
      rw [usableAt, lookupRaw_erase, if_pos rfl]
      rfl
    rw [this]
    exact firstStringVal_congr post (fun k'' hk'' => by
      rw [lookupRaw_erase, if_neg (fun h => hkpost (by rw [← h]; exact hk''))])

/-- C7 witness: on `entryC7`, with osID `d`, osFamily `t`, arch `a`,
installer `x`, the most specific key `apt:x:d:a` wins; erasing it falls
back to `apt:x:d`. -/
theorem getFieldByPriority_order_and_fallback_witness :
    getFieldByPriority entryC7 "apt" "x" "d" "t" "a" = some "v1" ∧
    getFieldByPriority (eraseRawKey entryC7 "apt:x:d:a") "apt" "x" "d" "t" "a" = some "v2" := by
  have h := (getFieldByPriority_order_and_fallback entryC7 "apt" "x" "d" "t" "a").2.2
    [] "apt:x:d:a"
    ["apt:x:d", "apt:x:t:a", "apt:x:t", "apt:x:a", "apt:x", "apt"] "v1"
    (by decide) (by decide) (by intro k' hk'; simp at hk') (by decide)
  refine ⟨h.1, ?_⟩
  rw [h.2 (by decide)]
  decide

/-- A key absent from the raw manifest yields the nil (empty) raw entry. -/
lemma lookupRawEntry_eq_nil_of_not_mem {raw : RawManifest} {key : String}
    (h : key ∉ raw.map Prod.fst) : lookupRawEntry raw key = [] := by
  induction raw with
  | nil => rfl
  | cons kv rest ih =>
    obtain ⟨k0, e0⟩ := kv
    simp only [List.map_cons, List.mem_cons] at h
    push_neg at h
    simp only [lookupRawEntry]
    rw [if_neg (fun hh => h.1 hh.symm)]
    exact ih h.2

/-- The resolver finds nothing in the empty raw entry. -/
lemma firstStringVal_nil_entry (keys : List String) : firstStringVal keys [] = none := by
  induction keys with
  | nil => rfl
  | cons k rest ih => simp [firstStringVal, lookupRaw, ih]

/-- `getFieldByPriority` finds nothing in the empty raw entry. -/
lemma getFieldByPriority_nil_entry (pfx installer osId osType osArch : String) :
    getFieldByPriority [] pfx installer osId osType osArch = none := by
  unfold getFieldByPriority
  by_cases h : installer ≠ "" <;> simp [h, firstStringVal_nil_entry]

/-- No installer resolves against the empty raw entry. -/
lemma pickInstaller_nil_entry (osId osType osArch : String) (order : List String) :
    pickInstaller [] osId osType osArch order = none := by
  induction order with
  | nil => rfl
  | cons t rest ih => simp [pickInstaller, getFieldByPriority_nil_entry, ih]

/-- C2 (amended): when the Raw Manifest is present (non-nil) but contains
no entry for the key, `addInstallerInstruction` resolves against the nil
raw entry and emits *no* package-manager instruction at all; the
typed-field (YAML round-trip) fallback applies only when the Raw Manifest
as a whole is nil. -/
theorem addInstallerInstruction_raw_present_key_missing
    (p : Provisioner) (key : String) (entry : SoftwareEntry) (raw : RawManifest)
    (h : p.manifestRaw = some raw) (hmiss : key ∉ raw.map Prod.fst) :
    addInstallerInstruction p key entry = some [] := by
  simp only [addInstallerInstruction, entryRawMap, h]
  rw [lookupRawEntry_eq_nil_of_not_mem hmiss, pickInstaller_nil_entry]

/-- C2 counterexample: the typed `apt` field of `foo` carries an installer
value and the raw manifest is present (non-nil) without a `foo` entry, yet
plan building emits no package-manager instruction for `foo` — the typed
field is not consulted. -/
theorem c2_counterexample_no_instruction :
    provC2.manifestRaw = some [] ∧
    lookupEntry provC2.manifest "foo" = some entryC2 ∧
    entryC2.apt = ["foo"] ∧
    planForKey provC2 "foo" none = .ok [] := by
  refine ⟨rfl, rfl, rfl, rfl⟩

/-- C2 witness for the amended claim, at the concrete C2 provisioner. -/
theorem addInstallerInstruction_raw_present_key_missing_witness :
    addInstallerInstruction provC2 "foo" entryC2 = some [] :=
  addInstallerInstruction_raw_present_key_missing provC2 "foo" entryC2 []
    rfl (by simp)

/-- In dry-run mode the execution fold only appends formatted lines: no
port call and no error is ever added. -/
lemma foldl_execStep_dryRun {p : Provisioner} (hd : p.dryRun = true) :
    ∀ (plan : List InstallInstruction) dlog calls errs,
      plan.foldl (execStep p) (dlog, calls, errs) =
        (dlog ++ plan.map (fun i => i.instType ++ " " ++ i.package), calls, errs) := by
  intro plan
  induction plan with
  | nil => intro dlog calls errs; simp
  | cons i rest ih =>
    intro dlog calls errs
    simp only [List.foldl_cons, execStep, hd, if_true, List.map_cons]
    rw [ih]
    simp

/-- C9: with `DryRun` set, `ExecutePlan` invokes the Command Execution Port
for no installer or script instruction — every recorded port call is a
`section` progress annotation — and instead appends exactly one
`"type package"` line per instruction to the dry-run log, in plan order;
the run reports no error. -/
theorem ExecutePlan_dryRun_no_port_calls (p : Provisioner) (plan : List InstallInstruction)
    (hd : p.dryRun = true) :
    DryRunCommands (ExecutePlan p plan).prov =
      p.dryRunLog ++ plan.map (fun i => i.instType ++ " " ++ i.package) ∧
    (∀ c ∈ (ExecutePlan p plan).calls, c.1 = "section") ∧
    (ExecutePlan p plan).ret = none := by
  by_cases h : plan.length = 0
  · have hnil : plan = [] := List.length_eq_zero.mp h
    subst hnil
    simp [ExecutePlan, DryRunCommands]
  · have hne : plan ≠ [] := fun heq => h (by simp [heq])
    refine ⟨?_, ?_, ?_⟩
    · simp [ExecutePlan, if_neg h, hne, foldl_execStep_dryRun hd, DryRunCommands]
    · simp only [ExecutePlan, if_neg h, foldl_execStep_dryRun hd]
      intro c hc
      simp [hne] at hc
      rcases hc with hc | hc <;> simp [hc]
    · simp [ExecutePlan, if_neg h, hne, foldl_execStep_dryRun hd]

/-- C9 witness: a two-instruction plan in dry-run mode yields the two
formatted lines in order and only `section` annotations on the port. -/
theorem ExecutePlan_dryRun_no_port_calls_witness :
    DryRunCommands (ExecutePlan provC9
        [{ instType := "apt", package := "foo" },
         { instType := "script", package := "echo hi" }]).prov =
      ["apt foo", "script echo hi"] ∧
    (∀ c ∈ (ExecutePlan provC9
        [{ instType := "apt", package := "foo" },
         { instType := "script", package := "echo hi" }]).calls, c.1 = "section") := by
  have h := ExecutePlan_dryRun_no_port_calls provC9
    [{ instType := "apt", package := "foo" },
     { instType := "script", package := "echo hi" }] rfl
  exact ⟨h.1, h.2.1⟩

/-- C1 (code bug): `ExecutePlan` collects failures only into a local list
and returns their join; it never assigns the `Errors` field (in general,
`Errors` is left untouched), so immediately after a failing `ExecutePlan`
run `AggregatedError()` is nil — contradicting the field's own
documentation (`Errors: Aggregated errors from last ExecutePlan`) and the
repository's (skipped) error-aggregation test. -/
theorem ExecutePlan_leaves_Errors_untouched :
    (∀ (q : Provisioner) (qplan : List InstallInstruction),
        (ExecutePlan q qplan).prov.errors = q.errors) ∧
    (ExecutePlan provC1 planFail).ret = some "fail apt" ∧
    (ExecutePlan provC1 planFail).prov.errors = [] ∧
    AggregatedError (ExecutePlan provC1 planFail).prov = none := by
  refine ⟨?_, rfl, rfl, rfl⟩
  intro q qplan
  unfold ExecutePlan
  by_cases h : qplan.length = 0
  · simp [h]
  · simp only [if_neg h]

/-- C3 (code bug): `ExecutePlan` contains no file output at all — even with
`LogFile` configured and a failing instruction, no line (plain or
`[ERROR]`-prefixed) is appended to the log file (in general the append
channel stays empty) — contradicting the field's own documentation
(`LogFile: If set, logs all command attempts and errors to this file`) and
the repository's (skipped) log-file test. -/
theorem ExecutePlan_writes_no_log_file :
    (∀ (q : Provisioner) (qplan : List InstallInstruction),
        (ExecutePlan q qplan).logFileAppends = []) ∧
    provC3.logFile = "/tmp/provision.log" ∧
    (ExecutePlan provC3 planFail).ret = some "fail apt" ∧
    (ExecutePlan provC3 planFail).logFileAppends = [] := by
  refine ⟨?_, rfl, rfl, rfl⟩
  intro q qplan
  unfold ExecutePlan
  by_cases h : qplan.length = 0
  · simp [h]
  · simp only [if_neg h]

/-- C10: `GetInstalledPackages` returns exactly the union of the five
per-manager result sets, and a failing query makes that manager contribute
the empty set (so the union of the remaining managers is still returned —
the function itself cannot fail). -/
theorem GetInstalledPackages_union_degrades
    : (∀ (runner : ExecRunner) (x : String),
        x ∈ GetInstalledPackages runner ↔
          x ∈ getAptInstalled runner ∨ x ∈ getBrewInstalled runner ∨
          x ∈ getPipxInstalled runner ∨ x ∈ getCargoInstalled runner ∨
          x ∈ getNpmInstalled runner) ∧
      (∀ (runner : ExecRunner) e, runner.output "dpkg" ["-l"] = .error e →
        getAptInstalled runner = []) ∧
      (∀ (runner : ExecRunner) e, runner.output "brew" ["list", "-1"] = .error e →
        getBrewInstalled runner = []) ∧
      (∀ (runner : ExecRunner) e, runner.output "pipx" ["list"] = .error e →
        getPipxInstalled runner = []) ∧
      (∀ (runner : ExecRunner) e, runner.output "cargo" ["install", "--list"] = .error e →
        getCargoInstalled runner = []) ∧
      (∀ (runner : ExecRunner) e, runner.output "npm" ["list", "-g", "--depth=0"] = .error e →
        getNpmInstalled runner = []) := by
  refine ⟨?_, ?_, ?_, ?_, ?_, ?_⟩
  · intro runner x
    simp [GetInstalledPackages, List.mem_append, or_assoc]
  · intro runner e h; unfold getAptInstalled; rw [h]
  · intro runner e h; unfold getBrewInstalled; rw [h]
  · intro runner e h; unfold getPipxInstalled; rw [h]
  · intro runner e h; unfold getCargoInstalled; rw [h]
  · intro runner e h; unfold getNpmInstalled; rw [h]

/-- C10 witness: with every query failing, each manager contributes the
empty set and the merged result is empty (the function returns normally). -/
theorem GetInstalledPackages_union_degrades_witness :
    getAptInstalled dummyRunner = [] ∧ getBrewInstalled dummyRunner = [] ∧
    getPipxInstalled dummyRunner = [] ∧ getCargoInstalled dummyRunner = [] ∧
    getNpmInstalled dummyRunner = [] ∧ GetInstalledPackages dummyRunner = [] := by
  have h := GetInstalledPackages_union_degrades
  exact ⟨h.2.1 dummyRunner "not available" rfl, h.2.2.1 dummyRunner "not available" rfl,
    h.2.2.2.1 dummyRunner "not available" rfl, h.2.2.2.2.1 dummyRunner "not available" rfl,
    h.2.2.2.2.2 dummyRunner "not available" rfl, rfl⟩

/-- The installer loop selects the first order entry whose field resolves,
never trying later entries. -/
lemma pickInstaller_first (em : RawEntry) (osId osType osArch : String) :
    ∀ (l1 : List String) (t0 : String) (l2 : List String) (v : String),
      (∀ t' ∈ l1, getFieldByPriority em t' "" osId osType osArch = none) →
      getFieldByPriority em t0 "" osId osType osArch = some v →
      pickInstaller em osId osType osArch (l1 ++ t0 :: l2) = some (t0, v) := by
  intro l1
  induction l1 with
  | nil =>
    intro t0 l2 v _ ht0
    simp [pickInstaller, ht0]
  | cons t rest ih =>
    intro t0 l2 v hl1 ht0
    have hnone := hl1 t (List.mem_cons_self t rest)
    simp only [List.cons_append, pickInstaller, hnone]
    exact ih t0 l2 v (fun t' ht' => hl1 t' (List.mem_cons_of_mem t ht')) ht0

/-- C8 (amended): for a key present in the manifest — a key marked
installed yields no instruction at all; a key excluded by none of the
installed, headless and lazy-only rules yields its script instructions in
source order followed by the instructions of `addInstallerInstruction`
when that step returns, and crashes with the Go index-out-of-range panic
when it does not; and when the first installer in the preference order
whose field resolves yields value `v`, `addInstallerInstruction` emits
exactly one instruction for it — none for any later installer — built from
the patched package name when the apt-family patch succeeds, while a value
that contains a space but splits to zero fields makes it panic and emit
nothing. -/
theorem planForKey_skip_and_first_installer
    (p : Provisioner) (key : String) (e : SoftwareEntry) (installed : Option (String → Bool))
    (he : lookupEntry p.manifest key = some e) :
    (∀ f, installed = some f → f key = true → planForKey p key installed = .ok []) ∧
    (shouldSkipInstalled installed key = false → shouldSkipHeadless p e = false →
      shouldSkipLazy p e = false →
      (∀ instrs, addInstallerInstruction p key e = some instrs →
        planForKey p key installed = .ok (addScriptInstructions e ++ instrs)) ∧
      (addInstallerInstruction p key e = none →
        planForKey p key installed = .panic aptPatchPanicMsg)) ∧
    (∀ (l1 : List String) (t0 : String) (l2 : List String) (v : String),
      effectiveOrder p = l1 ++ t0 :: l2 →
      (∀ t' ∈ l1,
        getFieldByPriority (entryRawMap p key e) t' "" (sysId p) (sysOS p) (sysArch p) = none) →
      getFieldByPriority (entryRawMap p key e) t0 "" (sysId p) (sysOS p) (sysArch p) = some v →
      (∀ pkg, patchPkg t0 v = some pkg →
        addInstallerInstruction p key e = some [{ instType := t0, package := pkg }]) ∧
      (patchPkg t0 v = none → addInstallerInstruction p key e = none)) := by
  refine ⟨?_, ?_, ?_⟩
  · intro f hf hkey
    simp [planForKey, he, shouldSkipInstalled, hf, hkey]
  · intro h1 h2 h3
    constructor
    · intro instrs hinstrs
      simp [planForKey, he, h1, h2, h3, hinstrs]
    · intro hnone
      simp [planForKey, he, h1, h2, h3, hnone]
  · intro l1 t0 l2 v horder hl1 ht0
    have hpick : pickInstaller (entryRawMap p key e) (sysId p) (sysOS p) (sysArch p)
        (effectiveOrder p) = some (t0, v) := by
      rw [horder]
      exact pickInstaller_first (entryRawMap p key e) (sysId p) (sysOS p) (sysArch p)
        l1 t0 l2 v hl1 ht0
    constructor
    · intro pkg hpkg
      simp [addInstallerInstruction, hpick, hpkg]
    · intro hpkg
      simp [addInstallerInstruction, hpick, hpkg]

/-- C8 counterexample (to the original claim): on a non-excluded key whose
first resolving installer is `apt` with the resolved value `" "` — a value
that contains a space but splits to zero fields — `planForKey` emits no
package-manager instruction at all: the Go patch step indexes an empty
slice and panics. -/
theorem c8_counterexample_apt_whitespace_panics :
    getFieldByPriority (entryRawMap provC8panic "k" ({} : SoftwareEntry)) "apt" ""
      (sysId provC8panic) (sysOS provC8panic) (sysArch provC8panic) = some " " ∧
    addInstallerInstruction provC8panic "k" {} = none ∧
    planForKey provC8panic "k" none = .panic aptPatchPanicMsg := by
  refine ⟨rfl, rfl, rfl⟩

/-- C8 witness: `apt` does not resolve, `brew` does and its patch succeeds,
so the plan for `k` is its script instruction followed by exactly the
`brew` instruction. -/
theorem planForKey_skip_and_first_installer_witness :
    planForKey provC8 "k" none =
      .ok [{ instType := "script", package := "echo s1" },
           { instType := "brew", package := "pkgB" }] ∧
    addInstallerInstruction provC8 "k" entryC8 =
      some [{ instType := "brew", package := "pkgB" }] := by
  have h := planForKey_skip_and_first_installer provC8 "k" entryC8 none rfl
  have h3 := (h.2.2 ["apt"] "brew" [] "pkgB" rfl
    (by intro t' ht'; simp at ht'; subst ht'; rfl) rfl).1 "pkgB" rfl
  have h2 := (h.2.1 rfl rfl rfl).1 _ h3
  constructor
  · rw [h2]
    rfl
  · exact h3

/-- Expanding the empty work list. -/
lemma expandDeps_nil (m : Manifest) (vis : List String) :
    expandDeps m [] vis = .ok ([], []) := by
  simp [expandDeps]

/-- The guard around the recursive dependency expansion is redundant:
expanding an empty dependency list returns `([], [])` as well. -/
lemma deps_if_collapse (m : Manifest) (l vis : List String) :
    (if 0 < l.length then expandDeps m l vis else Except.ok ([], [])) =
      expandDeps m l vis := by
  cases l with
  | nil => simp [expandDeps_nil]
  | cons a t => simp

/-- Expansion step for an already-visited key. -/
lemma expandDeps_cons_mem {m : Manifest} {k : String} {ks vis : List String}
    (hk : k ∈ vis) : expandDeps m (k :: ks) vis = expandDeps m ks vis := by
  simp only [expandDeps]
  rw [dif_pos hk]

/-- Expansion step for a fresh key, with the deps-length guard collapsed. -/
lemma expandDeps_cons_not_mem {m : Manifest} {k : String} {ks vis : List String}
    (hk : k ∉ vis) :
    expandDeps m (k :: ks) vis =
      match lookupEntry m k with
      | none => .error ("manifest key not found: " ++ k)
      | some e =>
        match expandDeps m e.deps (k :: vis) with
        | .error s => .error s
        | .ok (r1, n1) =>
          match expandDeps m ks (n1 ++ k :: vis) with
          | .error s => .error s
          | .ok (r2, n2) => .ok (r1 ++ k :: r2, n2 ++ n1 ++ [k]) := by
  simp only [expandDeps]
  rw [dif_neg hk]
  cases hlook : lookupEntry m k with
  | none => simp
  | some e => simp [deps_if_collapse]

/-- Dependent-if form of the deps-length guard, as it appears in the
functional induction principle of `expandDeps`. -/
lemma deps_dif_collapse (m : Manifest) (l vis : List String) :
    (if _h : 0 < l.length then expandDeps m l vis else Except.ok ([], [])) =
      expandDeps m l vis := by
  cases l with
  | nil => simp [expandDeps_nil]
  | cons a t => simp

/-- Expansion step for a fresh key present in the manifest. -/
lemma expandDeps_cons_some {m : Manifest} {k : String} (ks : List String)
    {vis : List String} {e : SoftwareEntry}
    (hk : k ∉ vis) (hlook : lookupEntry m k = some e) :
    expandDeps m (k :: ks) vis =
      match expandDeps m e.deps (k :: vis) with
      | .error s => .error s
      | .ok (r1, n1) =>
        match expandDeps m ks (n1 ++ k :: vis) with
        | .error s => .error s
        | .ok (r2, n2) => .ok (r1 ++ k :: r2, n2 ++ n1 ++ [k]) := by
  rw [expandDeps_cons_not_mem hk, hlook]

/-- Expansion step for a fresh key missing from the manifest. -/
lemma expandDeps_cons_none {m : Manifest} {k : String} {ks vis : List String}
    (hk : k ∉ vis) (hlook : lookupEntry m k = none) :
    expandDeps m (k :: ks) vis = .error ("manifest key not found: " ++ k) := by
  rw [expandDeps_cons_not_mem hk, hlook]

/-- Fully-resolved successful expansion step. -/
lemma expandDeps_cons_ok {m : Manifest} {k : String} {ks vis r1 n1 r2 n2 : List String}
    {e : SoftwareEntry} (hk : k ∉ vis) (hlook : lookupEntry m k = some e)
    (hdeps : expandDeps m e.deps (k :: vis) = .ok (r1, n1))
    (hcont : expandDeps m ks (n1 ++ k :: vis) = .ok (r2, n2)) :
    expandDeps m (k :: ks) vis = .ok (r1 ++ k :: r2, n2 ++ n1 ++ [k]) := by
  have h1 := expandDeps_cons_some ks hk hlook
  rw [hdeps] at h1
  have h2 : expandDeps m (k :: ks) vis =
      match expandDeps m ks (n1 ++ k :: vis) with
      | .error s => .error s
      | .ok (r2', n2') => .ok (r1 ++ k :: r2', n2' ++ n1 ++ [k]) := h1
  rw [hcont] at h2
  exact h2

/-- Error propagation from the dependency sub-expansion. -/
lemma expandDeps_cons_deps_error {m : Manifest} {k : String} {ks vis : List String}
    {e : SoftwareEntry} {s : String} (hk : k ∉ vis) (hlook : lookupEntry m k = some e)
    (hdeps : expandDeps m e.deps (k :: vis) = .error s) :
    expandDeps m (k :: ks) vis = .error s := by
  have h1 := expandDeps_cons_some ks hk hlook
  rw [hdeps] at h1
  exact h1

/-- Error propagation from the continuation of the work list. -/
lemma expandDeps_cons_cont_error {m : Manifest} {k : String} {ks vis r1 n1 : List String}
    {e : SoftwareEntry} {s : String} (hk : k ∉ vis) (hlook : lookupEntry m k = some e)
    (hdeps : expandDeps m e.deps (k :: vis) = .ok (r1, n1))
    (hcont : expandDeps m ks (n1 ++ k :: vis) = .error s) :
    expandDeps m (k :: ks) vis = .error s := by
  have h1 := expandDeps_cons_some ks hk hlook
  rw [hdeps] at h1
  have h2 : expandDeps m (k :: ks) vis =
      match expandDeps m ks (n1 ++ k :: vis) with
      | .error s => .error s
      | .ok (r2', n2') => .ok (r1 ++ k :: r2', n2' ++ n1 ++ [k]) := h1
  rw [hcont] at h2
  exact h2

/-- Fundamental invariant of one expansion call: on success, the newly
visited keys are exactly the emitted keys (up to permutation), the output
has no duplicates and avoids the incoming visited set, every requested key
ends up emitted or previously visited, and every emitted key was found in
the manifest with each of its dependencies emitted or previously visited. -/
lemma expandDeps_basic {m : Manifest} :
    ∀ (keys vis res newly : List String),
      expandDeps m keys vis = .ok (res, newly) →
      res.Perm newly ∧ res.Nodup ∧ (∀ x ∈ res, x ∉ vis) ∧
      (∀ x ∈ keys, x ∈ res ∨ x ∈ vis) ∧
      (∀ x ∈ res, ∃ e, lookupEntry m x = some e ∧ ∀ d ∈ e.deps, d ∈ res ∨ d ∈ vis) := by
  intro keys vis
  induction keys, vis using expandDeps.induct m with
  | case1 vis =>
    intro res newly h
    rw [expandDeps_nil] at h
    simp only [Except.ok.injEq, Prod.mk.injEq] at h
    obtain ⟨h1, h2⟩ := h
    subst h1
    subst h2
    exact ⟨List.Perm.refl _, List.nodup_nil, by simp, by simp, by simp⟩
  | case2 k ks vis hk ih =>
    intro res newly h
    rw [expandDeps_cons_mem hk] at h
    obtain ⟨hperm, hnodup, hdisj, hcover, hclosed⟩ := ih res newly h
    refine ⟨hperm, hnodup, hdisj, ?_, hclosed⟩
    intro x hx
    rcases List.mem_cons.mp hx with rfl | hx'
    · exact Or.inr hk
    · exact hcover x hx'
  | case3 k ks vis hk hlook =>
    intro res newly h
    rw [expandDeps_cons_none hk hlook] at h
    exact Except.noConfusion h
  | case4 k ks vis hk e hlook s hif ih1 =>
    intro res newly h
    rw [deps_dif_collapse] at hif
    rw [expandDeps_cons_deps_error hk hlook hif] at h
    exact Except.noConfusion h
  | case5 k ks vis hk e hlook r1 n1 hif s hcont ih1 ih2 =>
    intro res newly h
    rw [deps_dif_collapse] at hif
    rw [expandDeps_cons_cont_error hk hlook hif hcont] at h
    exact Except.noConfusion h
  | case6 k ks vis hk e hlook r1 n1 hif r2 n2 hcont ih1 ih2 =>
    intro res newly h
    rw [deps_dif_collapse] at hif
    rw [expandDeps_cons_ok hk hlook hif hcont] at h
    simp only [Except.ok.injEq, Prod.mk.injEq] at h
    obtain ⟨h1, h2⟩ := h
    subst h1
    subst h2
    obtain ⟨perm1, nodup1, disj1, cover1, closed1⟩ := ih1 r1 n1 hif
    obtain ⟨perm2, nodup2, disj2, cover2, closed2⟩ := ih2 r2 n2 hcont
    have hkr1 : k ∉ r1 := fun hkk => disj1 k hkk (List.mem_cons_self k vis)
    have hkr2 : k ∉ r2 := fun hkk => disj2 k hkk (by simp)
    have hr1r2 : List.Disjoint r1 r2 := by
      intro a ha1 ha2
      exact disj2 a ha2 (by simp [perm1.mem_iff.mp ha1])
    refine ⟨?_, ?_, ?_, ?_, ?_⟩
    · have p1 : (r1 ++ k :: r2).Perm (k :: (r1 ++ r2)) := List.perm_middle
      have p2 : (k :: (r1 ++ r2)).Perm (k :: (n1 ++ n2)) := List.Perm.cons k (perm1.append perm2)
      have p3 : (k :: (n1 ++ n2)).Perm (k :: (n2 ++ n1)) := List.Perm.cons k List.perm_append_comm
      have p4 : (k :: (n2 ++ n1)).Perm (n2 ++ n1 ++ [k]) := by
        have hmid := @List.perm_middle String k (n2 ++ n1) []
        simpa using hmid.symm
      exact ((p1.trans p2).trans p3).trans p4
    · have : (k :: (r1 ++ r2)).Nodup := by
        rw [List.nodup_cons, List.nodup_append]
        exact ⟨by simp [hkr1, hkr2], nodup1, nodup2, hr1r2⟩
      have hmid : List.Perm (k :: (r1 ++ r2)) (r1 ++ k :: r2) := List.perm_middle.symm
      exact hmid.nodup this
    · intro x hx
      simp only [List.mem_append, List.mem_cons] at hx
      rcases hx with hx | hx | hx
      · intro hv
        exact disj1 x hx (List.mem_cons_of_mem k hv)
      · subst hx
        exact hk
      · intro hv
        exact disj2 x hx (by simp [hv])
    · intro x hx
      rcases List.mem_cons.mp hx with rfl | hx'
      · exact Or.inl (by simp)
      · rcases cover2 x hx' with hr | hvv
        · exact Or.inl (by simp [hr])
        · simp only [List.mem_append, List.mem_cons] at hvv
          rcases hvv with hn1 | rfl | hv
          · exact Or.inl (by simp [perm1.mem_iff.mpr hn1])
          · exact Or.inl (by simp)
          · exact Or.inr hv
    · intro x hx
      simp only [List.mem_append, List.mem_cons] at hx
      rcases hx with hx | hx | hx
      · obtain ⟨e', he', hd⟩ := closed1 x hx
        refine ⟨e', he', fun d hdd => ?_⟩
        rcases hd d hdd with h | h
        · exact Or.inl (by simp [h])
        · rcases List.mem_cons.mp h with rfl | hv
          · exact Or.inl (by simp)
          · exact Or.inr hv
      · subst hx
        refine ⟨e, hlook, fun d hdd => ?_⟩
        rcases cover1 d hdd with h | h
        · exact Or.inl (by simp [h])
        · rcases List.mem_cons.mp h with rfl | hv
          · exact Or.inl (by simp)
          · exact Or.inr hv
      · obtain ⟨e', he', hd⟩ := closed2 x hx
        refine ⟨e', he', fun d hdd => ?_⟩
        rcases hd d hdd with h | h
        · exact Or.inl (by simp [h])
        · simp only [List.mem_append, List.mem_cons] at h
          rcases h with hn1 | rfl | hv
          · exact Or.inl (by simp [perm1.mem_iff.mpr hn1])
          · exact Or.inl (by simp)
          · exact Or.inr hv

/-- Ranks of emitted keys are bounded by any bound on the requested keys
(dependencies only ever decrease the rank). -/
lemma expandDeps_rank_lt {m : Manifest} {rank : String → Nat}
    (hrank : ∀ k e, lookupEntry m k = some e → ∀ d ∈ e.deps, rank d < rank k) :
    ∀ (keys vis res newly : List String) (C : Nat),
      expandDeps m keys vis = .ok (res, newly) →
      (∀ x ∈ keys, rank x < C) →
      ∀ x ∈ res, rank x < C := by
  intro keys vis
  induction keys, vis using expandDeps.induct m with
  | case1 vis =>
    intro res newly C h hb
    rw [expandDeps_nil] at h
    simp only [Except.ok.injEq, Prod.mk.injEq] at h
    obtain ⟨h1, h2⟩ := h
    subst h1
    simp
  | case2 k ks vis hk ih =>
    intro res newly C h hb
    rw [expandDeps_cons_mem hk] at h
    exact ih res newly C h (fun x hx => hb x (List.mem_cons_of_mem k hx))
  | case3 k ks vis hk hlook =>
    intro res newly C h hb
    rw [expandDeps_cons_none hk hlook] at h
    exact Except.noConfusion h
  | case4 k ks vis hk e hlook s hif ih1 =>
    intro res newly C h hb
    rw [deps_dif_collapse] at hif
    rw [expandDeps_cons_deps_error hk hlook hif] at h
    exact Except.noConfusion h
  | case5 k ks vis hk e hlook r1 n1 hif s hcont ih1 ih2 =>
    intro res newly C h hb
    rw [deps_dif_collapse] at hif
    rw [expandDeps_cons_cont_error hk hlook hif hcont] at h
    exact Except.noConfusion h
  | case6 k ks vis hk e hlook r1 n1 hif r2 n2 hcont ih1 ih2 =>
    intro res newly C h hb
    rw [deps_dif_collapse] at hif
    rw [expandDeps_cons_ok hk hlook hif hcont] at h
    simp only [Except.ok.injEq, Prod.mk.injEq] at h
    obtain ⟨h1, h2⟩ := h
    subst h1
    have hkC : rank k < C := hb k (List.mem_cons_self k ks)
    intro x hx
    simp only [List.mem_append, List.mem_cons] at hx
    rcases hx with hx | hx | hx
    · exact ih1 r1 n1 C hif
        (fun d hd => Nat.lt_trans (hrank k e hlook d hd) hkC) x hx
    · subst hx
      exact hkC
    · exact ih2 r2 n2 C hcont (fun d hd => hb d (List.mem_cons_of_mem k hd)) x hx

/-- `topoOK` is monotone in the done-set (membership-wise). -/
lemma topoOK_mono {m : Manifest} (res : List String) :
    ∀ (D D' : List String), (∀ x ∈ D, x ∈ D') → topoOK m D res → topoOK m D' res := by
  induction res with
  | nil => intro D D' _ _; trivial
  | cons k rest ih =>
    intro D D' h ht
    obtain ⟨h1, h2⟩ := ht
    refine ⟨fun d hd => h d (h1 d hd), ih (k :: D) (k :: D') ?_ h2⟩
    intro x hx
    rcases List.mem_cons.mp hx with rfl | hx'
    · exact List.mem_cons_self x (D')
    · exact List.mem_cons_of_mem k (h x hx')

/-- `topoOK` sequences: a sound prefix followed by a sound suffix (relative
to the prefix having been scanned) is sound. -/
lemma topoOK_append {m : Manifest} (xs : List String) :
    ∀ (ys D : List String),
      topoOK m D xs → topoOK m (xs.reverse ++ D) ys → topoOK m D (xs ++ ys) := by
  induction xs with
  | nil =>
    intro ys D _ h2
    simpa using h2
  | cons x xs ih =>
    intro ys D h1 h2
    obtain ⟨hd, ht⟩ := h1
    refine ⟨hd, ?_⟩
    apply ih ys (x :: D) ht
    have hre : (x :: xs).reverse ++ D = xs.reverse ++ (x :: D) := by simp
    rw [hre] at h2
    exact h2

/-- A `topoOK` scan places each key's dependencies in the initial done-set
or strictly earlier in the list. -/
lemma topoOK_take {m : Manifest} (res : List String) :
    ∀ (D : List String), topoOK m D res →
      ∀ (i : Nat) (hi : i < res.length),
        ∀ d ∈ depsOf m (res.get ⟨i, hi⟩), d ∈ D ∨ d ∈ res.take i := by
  induction res with
  | nil => intro D _ i hi; simp at hi
  | cons k rest ih =>
    intro D h i hi d hd
    obtain ⟨h1, h2⟩ := h
    cases i with
    | zero =>
      exact Or.inl (h1 d (by simpa using hd))
    | succ j =>
      have hj : j < rest.length := by simpa using hi
      have hrec := ih (k :: D) h2 j hj d (by simpa using hd)
      rcases hrec with hkD | htake
      · rcases List.mem_cons.mp hkD with rfl | hD
        · right; simp
        · exact Or.inl hD
      · right; simp [htake]

/-- Topological invariant of the expander: on an acyclic manifest (witnessed
by a rank function decreasing along dependency edges), a successful
expansion from a visited set split into done keys `D` and in-progress gray
keys `G` (each gray key ranking above everything requested) is `topoOK`
relative to `D`. -/
lemma expandDeps_topo {m : Manifest} {rank : String → Nat}
    (hrank : ∀ k e, lookupEntry m k = some e → ∀ d ∈ e.deps, rank d < rank k) :
    ∀ (keys vis res newly D G : List String),
      expandDeps m keys vis = .ok (res, newly) →
      (∀ x, x ∈ vis ↔ (x ∈ D ∨ x ∈ G)) →
      (∀ g ∈ G, ∀ x ∈ keys, rank x < rank g) →
      topoOK m D res := by
  intro keys vis
  induction keys, vis using expandDeps.induct m with
  | case1 vis =>
    intro res newly D G h hvis hG
    rw [expandDeps_nil] at h
    simp only [Except.ok.injEq, Prod.mk.injEq] at h
    obtain ⟨h1, h2⟩ := h
    subst h1
    trivial
  | case2 k ks vis hk ih =>
    intro res newly D G h hvis hG
    rw [expandDeps_cons_mem hk] at h
    exact ih res newly D G h hvis (fun g hg x hx => hG g hg x (List.mem_cons_of_mem k hx))
  | case3 k ks vis hk hlook =>
    intro res newly D G h hvis hG
    rw [expandDeps_cons_none hk hlook] at h
    exact Except.noConfusion h
  | case4 k ks vis hk e hlook s hif ih1 =>
    intro res newly D G h hvis hG
    rw [deps_dif_collapse] at hif
    rw [expandDeps_cons_deps_error hk hlook hif] at h
    exact Except.noConfusion h
  | case5 k ks vis hk e hlook r1 n1 hif s hcont ih1 ih2 =>
    intro res newly D G h hvis hG
    rw [deps_dif_collapse] at hif
    rw [expandDeps_cons_cont_error hk hlook hif hcont] at h
    exact Except.noConfusion h
  | case6 k ks vis hk e hlook r1 n1 hif r2 n2 hcont ih1 ih2 =>
    intro res newly D G h hvis hG
    rw [deps_dif_collapse] at hif
    rw [expandDeps_cons_ok hk hlook hif hcont] at h
    simp only [Except.ok.injEq, Prod.mk.injEq] at h
    obtain ⟨h1, h2⟩ := h
    subst h1
    obtain ⟨perm1, nodup1, disj1, cover1, closed1⟩ := expandDeps_basic _ _ _ _ hif
    have hrk : ∀ d ∈ e.deps, rank d < rank k := hrank k e hlook
    have hdof : depsOf m k = e.deps := by simp [depsOf, hlook]
    have htopo1 : topoOK m D r1 := by
      apply ih1 r1 n1 D (k :: G) hif
      · intro x
        have := hvis x
        simp only [List.mem_cons]
        tauto
      · intro g hg x hx
        rcases List.mem_cons.mp hg with rfl | hg'
        · exact hrk x hx
        · exact Nat.lt_trans (hrk x hx) (hG g hg' k (List.mem_cons_self k ks))
    have hkdeps : ∀ d ∈ e.deps, d ∈ r1 ∨ d ∈ D := by
      intro d hd
      rcases cover1 d hd with hr | hv
      · exact Or.inl hr
      · rcases List.mem_cons.mp hv with rfl | hv'
        · exact absurd (hrk d hd) (Nat.lt_irrefl _)
        · rcases (hvis d).mp hv' with hD | hG'
          · exact Or.inr hD
          · exact absurd (hrk d hd) (Nat.lt_asymm (hG d hG' k (List.mem_cons_self k ks)))
    have htopo2 : topoOK m (k :: (r1.reverse ++ D)) r2 := by
      apply ih2 r2 n2 (k :: (r1.reverse ++ D)) G hcont
      · intro x
        have hv := hvis x
        have hm := perm1.mem_iff (a := x)
        simp only [List.mem_append, List.mem_cons, List.mem_reverse]
        tauto
      · intro g hg x hx
        exact hG g hg x (List.mem_cons_of_mem k hx)
    apply topoOK_append r1 (k :: r2) D htopo1
    refine ⟨?_, htopo2⟩
    intro d hd
    rw [hdof] at hd
    rcases hkdeps d hd with hr | hD
    · exact List.mem_append_left D (List.mem_reverse.mpr hr)
    · exact List.mem_append_right _ hD

/-- A requested set drawn from a dep-closed family of present keys always
expands successfully. -/
lemma expandDeps_total_of_closed {m : Manifest} {S : List String}
    (hS : ∀ x ∈ S, (lookupEntry m x).isSome = true ∧ ∀ d ∈ depsOf m x, d ∈ S) :
    ∀ (keys vis : List String), (∀ x ∈ keys, x ∈ S) →
      ∃ out, expandDeps m keys vis = .ok out := by
  intro keys vis
  induction keys, vis using expandDeps.induct m with
  | case1 vis => intro _; exact ⟨([], []), expandDeps_nil m vis⟩
  | case2 k ks vis hk ih =>
    intro hkeys
    simp only [expandDeps_cons_mem hk]
    exact ih (fun x hx => hkeys x (List.mem_cons_of_mem k hx))
  | case3 k ks vis hk hlook =>
    intro hkeys
    have hkS := (hS k (hkeys k (List.mem_cons_self k ks))).1
    rw [hlook] at hkS
    simp at hkS
  | case4 k ks vis hk e hlook s hif ih1 =>
    intro hkeys
    rw [deps_dif_collapse] at hif
    have hkS := hS k (hkeys k (List.mem_cons_self k ks))
    have hdof : depsOf m k = e.deps := by simp [depsOf, hlook]
    have hdepsS : ∀ x ∈ e.deps, x ∈ S := by
      intro x hx
      exact hkS.2 x (by rw [hdof]; exact hx)
    obtain ⟨out, hout⟩ := ih1 hdepsS
    rw [hout] at hif
    exact Except.noConfusion hif
  | case5 k ks vis hk e hlook r1 n1 hif s hcont ih1 ih2 =>
    intro hkeys
    obtain ⟨out, hout⟩ := ih2 (fun x hx => hkeys x (List.mem_cons_of_mem k hx))
    rw [hout] at hcont
    exact Except.noConfusion hcont
  | case6 k ks vis hk e hlook r1 n1 hif r2 n2 hcont ih1 ih2 =>
    intro hkeys
    rw [deps_dif_collapse] at hif
    exact ⟨_, expandDeps_cons_ok hk hlook hif hcont⟩

/-- A successful lookup pairs the key with its entry in the manifest list. -/
lemma lookupEntry_mem {m : Manifest} {k : String} {e : SoftwareEntry}
    (h : lookupEntry m k = some e) : (k, e) ∈ m := by
  induction m with
  | nil => simp [lookupEntry] at h
  | cons kv rest ih =>
    obtain ⟨k', e'⟩ := kv
    by_cases hk : k' = k
    · subst hk
      simp [lookupEntry] at h
      subst h
      exact List.mem_cons_self _ _
    · simp only [lookupEntry, if_neg hk] at h
      exact List.mem_cons_of_mem _ (ih h)

/-- C4: on a manifest whose dependency relation is acyclic (witnessed by a
rank function strictly decreasing along `Deps` edges) and a request list
whose keys lie in a dependency-closed set of present keys, `expandDeps`
succeeds and yields an output with no duplicate key in which every
dependency of every emitted key appears strictly earlier; in particular the
manifest `{a: deps=[b,c]}, {b: deps=[c]}, {c: []}` with request `[a]`
expands to exactly `[c, b, a]`. -/
theorem expandDeps_topological_order
    (m : Manifest) (rank : String → Nat) (S keys : List String)
    (hrank : ∀ kv ∈ m, ∀ d ∈ kv.2.deps, rank d < rank kv.1)
    (hS : ∀ x ∈ S, (lookupEntry m x).isSome = true ∧ ∀ d ∈ depsOf m x, d ∈ S)
    (hkeys : ∀ x ∈ keys, x ∈ S) :
    (∃ res newly, expandDeps m keys [] = .ok (res, newly) ∧ res.Nodup ∧
      (∀ (i : Nat) (hi : i < res.length),
        ∀ d ∈ depsOf m (res.get ⟨i, hi⟩), d ∈ res.take i)) ∧
    expandDeps exampleManifest ["a"] [] = .ok (["c", "b", "a"], ["c", "b", "a"]) := by
  constructor
  · have hrank' : ∀ k e, lookupEntry m k = some e → ∀ d ∈ e.deps, rank d < rank k := by
      intro k e he d hd
      exact hrank (k, e) (lookupEntry_mem he) d hd
    obtain ⟨⟨res, newly⟩, hout⟩ := expandDeps_total_of_closed hS keys [] hkeys
    refine ⟨res, newly, hout, (expandDeps_basic keys [] res newly hout).2.1, ?_⟩
    have htopo : topoOK m [] res :=
      expandDeps_topo hrank' keys [] res newly [] [] hout (by simp) (by simp)
    intro i hi d hd
    rcases topoOK_take res [] htopo i hi d hd with hfalse | h
    · simp at hfalse
    · exact h
  · simp [expandDeps, exampleManifest, lookupEntry]

/-- C4 witness: the worked example, with the explicit ranking
`a ↦ 2, b ↦ 1, c ↦ 0` certifying acyclicity and the closed set
`[a, b, c]` certifying that all reachable keys are present. -/
theorem expandDeps_topological_order_witness :
    ∃ res newly, expandDeps exampleManifest ["a"] [] = .ok (res, newly) ∧ res.Nodup ∧
      (∀ (i : Nat) (hi : i < res.length),
        ∀ d ∈ depsOf exampleManifest (res.get ⟨i, hi⟩), d ∈ res.take i) :=
  (expandDeps_topological_order exampleManifest
    (fun s => if s = "a" then 2 else if s = "b" then 1 else 0)
    ["a", "b", "c"] ["a"] (by decide) (by decide) (by decide)).1

/-- C5: expansion of a cyclic manifest terminates normally — in general any
successful expansion emits no key twice, and on the two-cycle
`{A: deps=[B]}, {B: deps=[A]}` with both keys requested it returns (no
error is raised) with `A` and `B` each emitted exactly once. -/
theorem expandDeps_cycle_tolerant :
    (∀ (m : Manifest) (keys res newly : List String),
        expandDeps m keys [] = .ok (res, newly) → res.Nodup) ∧
    expandDeps cycleManifest ["A", "B"] [] = .ok (["B", "A"], ["B", "A"]) ∧
    (["B", "A"] : List String).count "A" = 1 ∧ (["B", "A"] : List String).count "B" = 1 := by
  refine ⟨?_, ?_, by decide, by decide⟩
  · intro m keys res newly h
    exact (expandDeps_basic keys [] res newly h).2.1
  · simp [expandDeps, cycleManifest, lookupEntry]

/-- C5 witness: the concrete two-cycle, fed back through the theorem's
general no-duplicates part. -/
theorem expandDeps_cycle_tolerant_witness :
    expandDeps cycleManifest ["A", "B"] [] = .ok (["B", "A"], ["B", "A"]) ∧
    (["B", "A"] : List String).Nodup :=
  ⟨expandDeps_cycle_tolerant.2.1,
   expandDeps_cycle_tolerant.1 cycleManifest ["A", "B"] ["B", "A"] ["B", "A"]
     expandDeps_cycle_tolerant.2.1⟩

/-- Every key reachable from the request list through `Deps` edges is
emitted by a successful top-level expansion and is present in the manifest. -/
lemma reaches_mem_of_ok {m : Manifest} {keys res newly : List String}
    (h : expandDeps m keys [] = .ok (res, newly)) :
    ∀ x, ReachesFrom m keys x → x ∈ res ∧ (lookupEntry m x).isSome = true := by
  obtain ⟨_, _, _, cover, closed⟩ := expandDeps_basic keys [] res newly h
  intro x hx
  induction hx with
  | base hmem =>
    rename_i z
    rcases cover z hmem with hr | hv
    · refine ⟨hr, ?_⟩
      obtain ⟨e, he, _⟩ := closed z hr
      simp [he]
    · simp at hv
  | step hre hlook hmem ih =>
    rename_i y e d
    obtain ⟨hyres, _⟩ := ih
    obtain ⟨e', he', hdeps⟩ := closed y hyres
    have hee : e' = e := by
      rw [he'] at hlook
      exact (Option.some.injEq e' e).mp hlook
    subst hee
    rcases hdeps d hmem with hdres | hdnil
    · refine ⟨hdres, ?_⟩
      obtain ⟨e2, he2, _⟩ := closed d hdres
      simp [he2]
    · simp at hdnil

/-- C6: if any key reachable from the request list (a requested key or one
reached transitively through `Deps`) is absent from the manifest, then
`PlanProvision` returns an error — the `PlanResult.error` result carries
no plan at all, mirroring Go's `(nil, err)` return. -/
theorem PlanProvision_unknown_key_error
    (p : Provisioner) (keys : List String) (installed : Option (String → Bool)) (x : String)
    (hreach : ReachesFrom p.manifest keys x)
    (hx : lookupEntry p.manifest x = none) :
    ∃ s, PlanProvision p keys installed = .error s := by
  cases hexp : expandDeps p.manifest keys [] with
  | error s => exact ⟨s, by simp [PlanProvision, hexp]⟩
  | ok out =>
    obtain ⟨res, newly⟩ := out
    have hsome := (reaches_mem_of_ok hexp x hreach).2
    rw [hx] at hsome
    simp at hsome

/-- C6 witness: requesting `a`, whose dependency `missing` is absent,
makes planning fail. -/
theorem PlanProvision_unknown_key_error_witness :
    ∃ s, PlanProvision provC6 ["a"] none = .error s :=
  PlanProvision_unknown_key_error provC6 ["a"] none "missing"
    (ReachesFrom.step (y := "a") (e := { deps := ["missing"] })
      (ReachesFrom.base (by simp)) rfl (by simp)) rfl
